import Mathlib

/-!
Shallow embedding of `src/data_structures/probabilistic/bloom_filters.rs`.

The Rust file defines three Bloom-filter variants sharing the trait
`BloomFilter<Item> { insert, contains }`:

* `BasicBloomFilter<CAPACITY>`: a `[bool; CAPACITY]` array; insert/contains
  hash the item with a fresh `DefaultHasher::new()` and use index
  `hash(item) % CAPACITY`.
* `SingleBinaryBloomFilter`: a single `u128` fingerprint; `mask_128` computes
  `2^(hash(item) % 128)`; insert ORs the mask in, contains ANDs and compares
  with 0.
* `MultiBinaryBloomFilter`: a byte-packed `Vec<u8>` of
  `filter_size / 8 + (1 if filter_size % 8 > 0 else 0)` bytes and
  `hash_builders: vec![RandomState::new(); hash_count]`.  Note that the
  `vec![expr; n]` macro evaluates `expr` once and clones it, so all
  `hash_count` builders are clones of a single `RandomState` (same seed);
  the embedding therefore takes a single hash function and replicates it.

Hashing: a fresh `DefaultHasher::new()` (or a fixed `RandomState`) applied to
an item is a deterministic pure function of the item, modelled as an abstract
function `α → ℕ` (the `u64` output; all arithmetic performed on it in the
source is `% m` with `m ≤ usize::MAX`, so no wraparound can occur and ℕ is
exact).  `u128` fingerprints only ever receive OR/AND of masks `2^i` with
`i < 128`, so ℕ models them exactly as well.

Rust panics (modulo by zero when `filter_size = 0`, out-of-bounds `Vec`
indexing) are modelled with `Option`: `none` is a panic.
-/

namespace BloomFilters

/-- BasicBloomFilter insert (bloom_filters.rs lines 37-42): hash the item,
set `vec[hash % CAPACITY] = true`.  The capacity `c` is the const generic;
the vector is modelled as a `List Bool` whose length is `c` on all states
the Rust program can build. -/
def basicInsert (c : ℕ) (hash : α → ℕ) (v : List Bool) (x : α) : List Bool :=
  v.set (hash x % c) true

/-- BasicBloomFilter contains (lines 44-49): read `vec[hash % CAPACITY]`. -/
def basicContains (c : ℕ) (hash : α → ℕ) (v : List Bool) (x : α) : Bool :=
  v.getD (hash x % c) false

/-- Fold of BasicBloomFilter inserts over a list of items. -/
def basicInsertList (c : ℕ) (hash : α → ℕ) (v : List Bool) (xs : List α) : List Bool :=
  xs.foldl (basicInsert c hash) v

/-- The mask_128 helper (lines 64-69): `2_u128.pow(hash(item) % 128)`. -/
def mask_128 (hash : α → ℕ) (x : α) : ℕ :=
  2 ^ (hash x % 128)

/-- SingleBinaryBloomFilter insert (lines 72-74): OR the mask into the
128-bit fingerprint. -/
def singleInsert (hash : α → ℕ) (fp : ℕ) (x : α) : ℕ :=
  fp ||| mask_128 hash x

/-- SingleBinaryBloomFilter contains (lines 76-78):
`(fingerprint & mask) > 0`. -/
def singleContains (hash : α → ℕ) (fp : ℕ) (x : α) : Bool :=
  decide (0 < fp &&& mask_128 hash x)

/-- Fold of SingleBinaryBloomFilter inserts over a list of items. -/
def singleInsertList (hash : α → ℕ) (fp : ℕ) (xs : List α) : ℕ :=
  xs.foldl (singleInsert hash) fp

/-- MultiBinaryBloomFilter (lines 92-96): byte-packed storage plus the list
of hash builders (each modelled by the pure function it computes). -/
structure MultiBinaryBloomFilter (α : Type) where
  filter_size : ℕ
  bytes : List ℕ
  hash_builders : List (α → ℕ)

/-- with_dimensions (lines 100-107).  `bytes_count` is taken verbatim from
the source; `vec![RandomState::new(); hash_count]` evaluates
`RandomState::new()` once (the parameter `h`) and clones it `hash_count`
times, hence `List.replicate`. -/
def MultiBinaryBloomFilter.with_dimensions (h : α → ℕ) (filter_size hash_count : ℕ) :
    MultiBinaryBloomFilter α :=
  { filter_size := filter_size
    bytes := List.replicate (filter_size / 8 + if filter_size % 8 > 0 then 1 else 0) 0
    hash_builders := List.replicate hash_count h }

/-- One iteration of the insert loop body (lines 111-119) for one hash value
`hv`: `index = hv % filter_size` (Rust panics on `% 0`: `none`), then
`bytes[index / 8] |= 1 << (index % 8)` (panic when the byte index is out of
bounds: `none`). -/
def multiSetStep (m : ℕ) (bytes : List ℕ) (hv : ℕ) : Option (List ℕ) :=
  if m = 0 then none
  else
    let index := hv % m
    let byteIndex := index / 8
    let bitIndex := index % 8
    if byteIndex < bytes.length then
      some (bytes.set byteIndex ((bytes.getD byteIndex 0) ||| (1 <<< bitIndex)))
    else none

/-- The insert loop over the hash values produced by the builders. -/
def multiInsertAux (m : ℕ) (bytes : List ℕ) : List ℕ → Option (List ℕ)
  | [] => some bytes
  | hv :: rest =>
    match multiSetStep m bytes hv with
    | none => none
    | some bytes2 => multiInsertAux m bytes2 rest

/-- MultiBinaryBloomFilter insert (lines 110-120). -/
def MultiBinaryBloomFilter.insert (f : MultiBinaryBloomFilter α) (x : α) :
    Option (MultiBinaryBloomFilter α) :=
  (multiInsertAux f.filter_size f.bytes (f.hash_builders.map (fun b => b x))).map
    (fun bs => { f with bytes := bs })

/-- The contains loop (lines 123-134): for each hash value, panic on `% 0`
or out-of-bounds indexing (`none`), return `false` as soon as
`bytes[index / 8] & (1 << (index % 8)) == 0`, and `true` after the loop. -/
def multiContainsAux (m : ℕ) (bytes : List ℕ) : List ℕ → Option Bool
  | [] => some true
  | hv :: rest =>
    if m = 0 then none
    else
      let index := hv % m
      let byteIndex := index / 8
      let bitIndex := index % 8
      if byteIndex < bytes.length then
        if (bytes.getD byteIndex 0) &&& (1 <<< bitIndex) = 0 then some false
        else multiContainsAux m bytes rest
      else none

/-- MultiBinaryBloomFilter contains (lines 122-135). -/
def MultiBinaryBloomFilter.contains (f : MultiBinaryBloomFilter α) (x : α) : Option Bool :=
  multiContainsAux f.filter_size f.bytes (f.hash_builders.map (fun b => b x))

/-- Sequence of MultiBinaryBloomFilter inserts; a panic (`none`) anywhere
aborts the run. -/
def MultiBinaryBloomFilter.insertList :
    MultiBinaryBloomFilter α → List α → Option (MultiBinaryBloomFilter α)
  | f, [] => some f
  | f, x :: xs =>
    match f.insert x with
    | none => none
    | some f2 => f2.insertList xs

/-- Logical bit `i` of the byte-packed storage, exactly as the source reads
it: byte `i / 8`, mask `1 << (i % 8)`. -/
def getBit (bytes : List ℕ) (i : ℕ) : Bool :=
  decide ((bytes.getD (i / 8) 0) &&& (1 <<< (i % 8)) ≠ 0)

/-- Modelled from the spec: the repository exposes no SizingAdvisor
component; the sizing formulas appear only inline in the test
`a_multi_binary_bloom_filter_must_not_return_false_negatives`
(bloom_filters.rs lines 214-215).  Following the words of the spec,
`recommend(n, p) = (m, k)` with `m = ceil(-n * ln p / (ln 2)^2)` and
`k = ceil((m / n) * ln 2)`; the `f64` arithmetic is modelled over ℝ, and
`.ceil() as usize` (which clamps negative values to 0) as `Nat.ceil`. -/
noncomputable def SizingAdvisor.recommend (n : ℕ) (p : ℝ) : ℕ × ℕ :=
  let m : ℕ := ⌈-(n : ℝ) * Real.log p / (Real.log 2) ^ 2⌉₊
  (m, ⌈((m : ℝ) / (n : ℝ)) * Real.log 2⌉₊)

/-- The optimal_filter_size computation written inline in the test at line
214, with FALSE_POSITIVE_MAX = 0.05:
`(-(n as f64) * 0.05.ln() / (2.0.ln().powi(2))).ceil() as usize`. -/
noncomputable def optimalFilterSize (n : ℕ) : ℕ :=
  ⌈-(n : ℝ) * Real.log 0.05 / (Real.log 2) ^ 2⌉₊

/-- The optimal_hash_count computation written inline in the test at line
215: `((optimal_filter_size as f64 / n as f64) * 2.0.ln()).ceil() as usize`. -/
noncomputable def optimalHashCount (n : ℕ) : ℕ :=
  ⌈((optimalFilterSize n : ℝ) / (n : ℝ)) * Real.log 2⌉₊

/-! Helper lemmas on bits and list updates. -/

lemma and_two_pow_ne_zero_iff (x i : ℕ) : x &&& 2 ^ i ≠ 0 ↔ x.testBit i = true := by
  rw [Nat.and_two_pow]
  cases h : x.testBit i
  · simp
  · simp [(Nat.two_pow_pos i).ne']

lemma or_two_pow_of_testBit (x b : ℕ) (h : x.testBit b = true) : x ||| 2 ^ b = x := by
  apply Nat.eq_of_testBit_eq
  intro j
  rw [Nat.testBit_lor, Nat.testBit_two_pow]
  by_cases hj : b = j
  · subst hj
    simp [h]
  · simp [hj]

lemma getD_set_eq {β : Type} (l : List β) (i : ℕ) (a d : β) (h : i < l.length) :
    (l.set i a).getD i d = a := by
  simp [List.getD_eq_getElem?_getD, List.getElem?_set, h]

lemma getD_set_ne {β : Type} (l : List β) {i j : ℕ} (a d : β) (h : i ≠ j) :
    (l.set i a).getD j d = l.getD j d := by
  simp [List.getD_eq_getElem?_getD, List.getElem?_set, h]

lemma set_getD_self (l : List ℕ) (i : ℕ) (h : i < l.length) : l.set i (l.getD i 0) = l := by
  apply List.ext_getElem?
  intro j
  rw [List.getElem?_set]
  by_cases hij : i = j
  · subst hij
    simp [List.getD_eq_getElem?_getD, List.getElem?_eq_getElem h, h]
  · simp [hij]

lemma getBit_eq_testBit (bytes : List ℕ) (i : ℕ) :
    getBit bytes i = (bytes.getD (i / 8) 0).testBit (i % 8) := by
  rw [getBit, Nat.one_shiftLeft]
  cases h : (bytes.getD (i / 8) 0).testBit (i % 8)
  · simp only [and_two_pow_ne_zero_iff, h]
    simp
  · simp only [and_two_pow_ne_zero_iff, h]
    simp

lemma getBit_step_self (bytes : List ℕ) (index : ℕ) (h : index / 8 < bytes.length) :
    getBit (bytes.set (index / 8) ((bytes.getD (index / 8) 0) ||| (1 <<< (index % 8)))) index =
      true := by
  rw [getBit_eq_testBit, getD_set_eq _ _ _ _ h, Nat.one_shiftLeft, Nat.testBit_lor,
    Nat.testBit_two_pow_self, Bool.or_true]

lemma getBit_step_mono (bytes : List ℕ) (index j : ℕ)
    (hj : getBit bytes j = true) :
    getBit (bytes.set (index / 8) ((bytes.getD (index / 8) 0) ||| (1 <<< (index % 8)))) j =
      true := by
  rw [getBit_eq_testBit] at hj ⊢
  by_cases hb : index / 8 = j / 8
  · by_cases hr : index / 8 < bytes.length
    · rw [← hb] at hj
      rw [← hb, getD_set_eq _ _ _ _ hr, Nat.testBit_lor, hj, Bool.true_or]
    · rw [List.set_eq_of_length_le (Nat.le_of_not_lt hr)]
      exact hj
  · rw [getD_set_ne _ _ _ hb]
    exact hj

lemma multiSetStep_eq (m : ℕ) (bytes : List ℕ) (hv : ℕ) (hm : m ≠ 0)
    (hb : hv % m / 8 < bytes.length) :
    multiSetStep m bytes hv =
      some (bytes.set (hv % m / 8) ((bytes.getD (hv % m / 8) 0) ||| (1 <<< (hv % m % 8)))) := by
  simp [multiSetStep, hm, hb]

lemma multiSetStep_some (m : ℕ) (bytes bs : List ℕ) (hv : ℕ)
    (h : multiSetStep m bytes hv = some bs) :
    m ≠ 0 ∧ hv % m / 8 < bytes.length ∧
      bs = bytes.set (hv % m / 8) ((bytes.getD (hv % m / 8) 0) ||| (1 <<< (hv % m % 8))) := by
  by_cases hm : m = 0
  · simp [multiSetStep, hm] at h
  · by_cases hb : hv % m / 8 < bytes.length
    · refine ⟨hm, hb, ?_⟩
      rw [multiSetStep_eq m bytes hv hm hb] at h
      exact (Option.some_injective _ h).symm
    · simp [multiSetStep, hm, hb] at h

lemma multiInsertAux_spec (m : ℕ) (hm : m ≠ 0) (hvs : List ℕ) :
    ∀ bytes : List ℕ, (∀ i, i < m → i / 8 < bytes.length) →
    ∃ bs, multiInsertAux m bytes hvs = some bs ∧ bs.length = bytes.length ∧
      (∀ j, getBit bytes j = true → getBit bs j = true) ∧
      (∀ hv ∈ hvs, getBit bs (hv % m) = true) := by
  induction hvs with
  | nil =>
    intro bytes _
    exact ⟨bytes, rfl, rfl, fun _ h => h, by simp⟩
  | cons hv rest ih =>
    intro bytes hlen
    have hb : hv % m / 8 < bytes.length := hlen _ (Nat.mod_lt _ (Nat.pos_of_ne_zero hm))
    obtain ⟨bs, hbs, hlenbs, hmono, hset⟩ :=
      ih (bytes.set (hv % m / 8) ((bytes.getD (hv % m / 8) 0) ||| (1 <<< (hv % m % 8))))
        (by rw [List.length_set]; exact hlen)
    refine ⟨bs, ?_, ?_, ?_, ?_⟩
    · rw [multiInsertAux, multiSetStep_eq m bytes hv hm hb]
      exact hbs
    · rw [hlenbs, List.length_set]
    · intro j hj
      exact hmono j (getBit_step_mono bytes (hv % m) j hj)
    · intro hv2 hmem
      rcases List.mem_cons.mp hmem with hcase | hcase
      · subst hcase
        exact hmono _ (getBit_step_self bytes (hv2 % m) hb)
      · exact hset hv2 hcase

lemma multiInsertAux_success (m : ℕ) (hvs : List ℕ) :
    ∀ bytes bs : List ℕ, multiInsertAux m bytes hvs = some bs →
    bs.length = bytes.length ∧
      (∀ j, getBit bytes j = true → getBit bs j = true) ∧
      (∀ hv ∈ hvs, m ≠ 0 ∧ hv % m / 8 < bytes.length ∧ getBit bs (hv % m) = true) := by
  induction hvs with
  | nil =>
    intro bytes bs h
    have hb : bytes = bs := Option.some_injective _ h
    subst hb
    exact ⟨rfl, fun _ h2 => h2, by simp⟩
  | cons hv rest ih =>
    intro bytes bs h
    rw [multiInsertAux] at h
    rcases hstep : multiSetStep m bytes hv with _ | bytes2
    · rw [hstep] at h
      exact absurd h (by simp)
    · rw [hstep] at h
      obtain ⟨hm, hb, hbytes2⟩ := multiSetStep_some m bytes bytes2 hv hstep
      obtain ⟨hlen2, hmono2, hrest⟩ := ih bytes2 bs h
      subst hbytes2
      refine ⟨by rw [hlen2, List.length_set], ?_, ?_⟩
      · intro j hj
        exact hmono2 j (getBit_step_mono bytes (hv % m) j hj)
      · intro hv2 hmem
        rcases List.mem_cons.mp hmem with hcase | hcase
        · subst hcase
          exact ⟨hm, hb, hmono2 _ (getBit_step_self bytes (hv2 % m) hb)⟩
        · obtain ⟨hm2, hb2, hbit2⟩ := hrest hv2 hcase
          exact ⟨hm2, by rw [List.length_set] at hb2; exact hb2, hbit2⟩

lemma multiInsertAux_noop (m : ℕ) (hvs : List ℕ) :
    ∀ bytes : List ℕ,
    (∀ hv ∈ hvs, m ≠ 0 ∧ hv % m / 8 < bytes.length ∧ getBit bytes (hv % m) = true) →
    multiInsertAux m bytes hvs = some bytes := by
  induction hvs with
  | nil =>
    intro bytes _
    rfl
  | cons hv rest ih =>
    intro bytes hall
    obtain ⟨hm, hb, hbit⟩ := hall hv (List.mem_cons_self hv rest)
    have hset : (bytes.getD (hv % m / 8) 0) ||| (1 <<< (hv % m % 8)) =
        bytes.getD (hv % m / 8) 0 := by
      rw [getBit_eq_testBit] at hbit
      rw [Nat.one_shiftLeft]
      exact or_two_pow_of_testBit _ _ hbit
    rw [multiInsertAux, multiSetStep_eq m bytes hv hm hb, hset, set_getD_self bytes _ hb]
    exact ih bytes (fun hv2 hmem => hall hv2 (List.mem_cons_of_mem hv hmem))

lemma multiContainsAux_true (m : ℕ) (hm : m ≠ 0) (hvs : List ℕ) (bytes : List ℕ)
    (hin : ∀ hv ∈ hvs, hv % m / 8 < bytes.length)
    (hset : ∀ hv ∈ hvs, getBit bytes (hv % m) = true) :
    multiContainsAux m bytes hvs = some true := by
  induction hvs with
  | nil => rfl
  | cons hv rest ih =>
    have hb : hv % m / 8 < bytes.length := hin hv (List.mem_cons_self hv rest)
    have hbit := hset hv (List.mem_cons_self hv rest)
    rw [getBit] at hbit
    have hne : (bytes.getD (hv % m / 8) 0) &&& (1 <<< (hv % m % 8)) ≠ 0 := of_decide_eq_true hbit
    rw [multiContainsAux]
    simp only [hm, if_false, hb, if_true, hne]
    exact ih (fun hv2 hmem => hin hv2 (List.mem_cons_of_mem hv hmem))
      (fun hv2 hmem => hset hv2 (List.mem_cons_of_mem hv hmem))

lemma multiContainsAux_isSome (m : ℕ) (hm : m ≠ 0) (hvs : List ℕ) (bytes : List ℕ)
    (hin : ∀ hv ∈ hvs, hv % m / 8 < bytes.length) :
    (multiContainsAux m bytes hvs).isSome = true := by
  induction hvs with
  | nil => rfl
  | cons hv rest ih =>
    have hb : hv % m / 8 < bytes.length := hin hv (List.mem_cons_self hv rest)
    rw [multiContainsAux]
    simp only [hm, if_false, hb, if_true]
    by_cases hz : (bytes.getD (hv % m / 8) 0) &&& (1 <<< (hv % m % 8)) = 0
    · rw [if_pos hz]
      rfl
    · rw [if_neg hz]
      exact ih (fun hv2 hmem => hin hv2 (List.mem_cons_of_mem hv hmem))

lemma div8_lt_bytesCount {m i : ℕ} (hi : i < m) :
    i / 8 < m / 8 + if m % 8 > 0 then 1 else 0 := by
  by_cases h8 : m % 8 > 0 <;> simp [h8] <;> omega

lemma insertList_spec {α : Type} (m : ℕ) (hm : m ≠ 0) (xs : List α) :
    ∀ f : MultiBinaryBloomFilter α, f.filter_size = m →
    (∀ i, i < m → i / 8 < f.bytes.length) →
    ∃ f2, f.insertList xs = some f2 ∧ f2.filter_size = m ∧
      f2.hash_builders = f.hash_builders ∧ f2.bytes.length = f.bytes.length ∧
      (∀ j, getBit f.bytes j = true → getBit f2.bytes j = true) ∧
      (∀ x ∈ xs, ∀ b ∈ f.hash_builders, getBit f2.bytes (b x % m) = true) := by
  induction xs with
  | nil =>
    intro f hfs _
    exact ⟨f, rfl, hfs, rfl, rfl, fun _ h => h, by simp⟩
  | cons x rest ih =>
    intro f hfs hlen
    obtain ⟨bs, hbs, hlenbs, hmono, hset⟩ :=
      multiInsertAux_spec m hm (f.hash_builders.map (fun b => b x)) f.bytes hlen
    have hins : f.insert x = some { f with bytes := bs } := by
      rw [MultiBinaryBloomFilter.insert, hfs, hbs]
      rfl
    obtain ⟨f2, hf2, hfs2, hb2, hlen2, hmono2, hset2⟩ :=
      ih { f with bytes := bs } hfs
        (by
          intro i hi
          show i / 8 < bs.length
          rw [hlenbs]
          exact hlen i hi)
    refine ⟨f2, ?_, hfs2, hb2, hlen2.trans hlenbs, ?_, ?_⟩
    · show f.insertList (x :: rest) = some f2
      rw [MultiBinaryBloomFilter.insertList, hins]
      exact hf2
    · intro j hj
      exact hmono2 j (hmono j hj)
    · intro y hy b hbmem
      rcases List.mem_cons.mp hy with hcase | hcase
      · subst hcase
        exact hmono2 _ (hset _ (List.mem_map_of_mem _ hbmem))
      · exact hset2 y hcase b hbmem

/-! Lemmas for the BasicBloomFilter. -/

lemma basicInsertList_length {α : Type} (c : ℕ) (hash : α → ℕ) :
    ∀ (xs : List α) (v : List Bool), (basicInsertList c hash v xs).length = v.length := by
  intro xs
  induction xs with
  | nil =>
    intro v
    rfl
  | cons y ys ih =>
    intro v
    show (basicInsertList c hash (basicInsert c hash v y) ys).length = v.length
    rw [ih, basicInsert, List.length_set]

lemma basicContains_insert_self {α : Type} (c : ℕ) (hash : α → ℕ) (v : List Bool) (x : α)
    (hc : 0 < c) (hlen : v.length = c) :
    basicContains c hash (basicInsert c hash v x) x = true := by
  have hlt : hash x % c < v.length := by
    rw [hlen]
    exact Nat.mod_lt _ hc
  rw [basicContains, basicInsert, getD_set_eq _ _ _ _ hlt]

lemma basicContains_insert_mono {α : Type} (c : ℕ) (hash : α → ℕ) (v : List Bool) (x y : α)
    (h : basicContains c hash v y = true) :
    basicContains c hash (basicInsert c hash v x) y = true := by
  rw [basicContains] at h
  rw [basicContains, basicInsert]
  by_cases hxy : hash x % c = hash y % c
  · rw [← hxy] at h ⊢
    by_cases hr : hash x % c < v.length
    · rw [getD_set_eq _ _ _ _ hr]
    · rw [List.set_eq_of_length_le (Nat.le_of_not_lt hr)]
      exact h
  · rw [getD_set_ne _ _ _ hxy]
    exact h

lemma basicInsertList_mono {α : Type} (c : ℕ) (hash : α → ℕ) (y : α) :
    ∀ (xs : List α) (v : List Bool), basicContains c hash v y = true →
    basicContains c hash (basicInsertList c hash v xs) y = true := by
  intro xs
  induction xs with
  | nil =>
    intro v h
    exact h
  | cons z zs ih =>
    intro v h
    exact ih (basicInsert c hash v z) (basicContains_insert_mono c hash v z y h)

lemma basic_no_false_negative {α : Type} (c : ℕ) (hash : α → ℕ) (x : α) (hc : 0 < c) :
    ∀ (xs : List α) (v : List Bool), v.length = c → x ∈ xs →
    basicContains c hash (basicInsertList c hash v xs) x = true := by
  intro xs
  induction xs with
  | nil =>
    intro v _ hmem
    exact absurd hmem (List.not_mem_nil x)
  | cons y ys ih =>
    intro v hlen hmem
    rcases List.mem_cons.mp hmem with hcase | hcase
    · subst hcase
      exact basicInsertList_mono c hash x ys (basicInsert c hash v x)
        (basicContains_insert_self c hash v x hc hlen)
    · exact ih (basicInsert c hash v y)
        (by rw [basicInsert, List.length_set]; exact hlen) hcase

/-! Lemmas for the SingleBinaryBloomFilter. -/

lemma singleContains_eq_testBit {α : Type} (hash : α → ℕ) (fp : ℕ) (x : α) :
    singleContains hash fp x = fp.testBit (hash x % 128) := by
  rw [singleContains, mask_128]
  by_cases h : fp.testBit (hash x % 128) = true
  · rw [h]
    apply decide_eq_true
    rw [Nat.pos_iff_ne_zero]
    exact (and_two_pow_ne_zero_iff _ _).mpr h
  · rw [Bool.eq_false_iff.mpr h]
    apply decide_eq_false
    rw [Nat.pos_iff_ne_zero]
    intro hne
    exact h ((and_two_pow_ne_zero_iff _ _).mp hne)

lemma singleContains_insert_self {α : Type} (hash : α → ℕ) (fp : ℕ) (x : α) :
    singleContains hash (singleInsert hash fp x) x = true := by
  rw [singleContains_eq_testBit, singleInsert, mask_128, Nat.testBit_lor,
    Nat.testBit_two_pow_self, Bool.or_true]

lemma singleContains_insert_mono {α : Type} (hash : α → ℕ) (fp : ℕ) (x y : α)
    (h : singleContains hash fp y = true) :
    singleContains hash (singleInsert hash fp x) y = true := by
  rw [singleContains_eq_testBit] at h
  rw [singleContains_eq_testBit, singleInsert, Nat.testBit_lor, h, Bool.true_or]

lemma singleInsertList_mono {α : Type} (hash : α → ℕ) (y : α) :
    ∀ (xs : List α) (fp : ℕ), singleContains hash fp y = true →
    singleContains hash (singleInsertList hash fp xs) y = true := by
  intro xs
  induction xs with
  | nil =>
    intro fp h
    exact h
  | cons z zs ih =>
    intro fp h
    exact ih (singleInsert hash fp z) (singleContains_insert_mono hash fp z y h)

lemma single_no_false_negative {α : Type} (hash : α → ℕ) (x : α) :
    ∀ (xs : List α) (fp : ℕ), x ∈ xs →
    singleContains hash (singleInsertList hash fp xs) x = true := by
  intro xs
  induction xs with
  | nil =>
    intro fp hmem
    exact absurd hmem (List.not_mem_nil x)
  | cons y ys ih =>
    intro fp hmem
    rcases List.mem_cons.mp hmem with hcase | hcase
    · subst hcase
      exact singleInsertList_mono hash x ys (singleInsert hash fp x)
        (singleContains_insert_self hash fp x)
    · exact ih (singleInsert hash fp y) hcase

/-! The simulation relation between a capacity-128 BasicBloomFilter and the
SingleBinaryBloomFilter: cell i of the boolean vector holds bit i of the
fingerprint. -/

lemma basicSingle_invariant {α : Type} (hash : α → ℕ) :
    ∀ (xs : List α) (v : List Bool) (fp : ℕ),
    v.length = 128 → (∀ i, v.getD i false = fp.testBit i) →
    (basicInsertList 128 hash v xs).length = 128 ∧
    (∀ i, (basicInsertList 128 hash v xs).getD i false =
      (singleInsertList hash fp xs).testBit i) := by
  intro xs
  induction xs with
  | nil =>
    intro v fp hlen hinv
    exact ⟨hlen, hinv⟩
  | cons y ys ih =>
    intro v fp hlen hinv
    apply ih (basicInsert 128 hash v y) (singleInsert hash fp y)
    · rw [basicInsert, List.length_set]
      exact hlen
    · intro i
      rw [basicInsert, singleInsert, mask_128, Nat.testBit_lor, Nat.testBit_two_pow]
      by_cases hi : hash y % 128 = i
      · rw [← hi]
        have hr : hash y % 128 < v.length := by
          rw [hlen]
          exact Nat.mod_lt _ (by norm_num)
        rw [getD_set_eq _ _ _ _ hr]
        simp
      · rw [getD_set_ne _ _ _ hi, hinv i]
        simp [hi]

/-! Claim theorems. -/

/-- Claim C1: for every filter variant (BasicBloomFilter of positive capacity,
SingleBinaryBloomFilter, and any MultiBinaryBloomFilter constructed with
filter_size > 0), for every finite sequence of insert calls and every item x,
if x was passed to insert before a contains(x) call, then that contains(x)
call returns true: no false negatives. -/
theorem no_false_negatives :
    (∀ (α : Type) (hash : α → ℕ) (c : ℕ) (v : List Bool) (xs : List α) (x : α),
      0 < c → v.length = c → x ∈ xs →
      basicContains c hash (basicInsertList c hash v xs) x = true) ∧
    (∀ (α : Type) (hash : α → ℕ) (fp : ℕ) (xs : List α) (x : α), x ∈ xs →
      singleContains hash (singleInsertList hash fp xs) x = true) ∧
    (∀ (α : Type) (h : α → ℕ) (m k : ℕ) (xs : List α) (x : α), 0 < m → x ∈ xs →
      ∃ f2, (MultiBinaryBloomFilter.with_dimensions h m k).insertList xs = some f2 ∧
        f2.contains x = some true) := by
  refine ⟨?_, ?_, ?_⟩
  · intro α hash c v xs x hc hlen hmem
    exact basic_no_false_negative c hash x hc xs v hlen hmem
  · intro α hash fp xs x hmem
    exact single_no_false_negative hash x xs fp hmem
  · intro α h m k xs x hm hmem
    have hm0 : m ≠ 0 := hm.ne'
    have hlen0 : (MultiBinaryBloomFilter.with_dimensions h m k).bytes.length =
        m / 8 + if m % 8 > 0 then 1 else 0 := List.length_replicate _ _
    obtain ⟨f2, h1, h2, h3, h4, _, h6⟩ :=
      insertList_spec m hm0 xs (MultiBinaryBloomFilter.with_dimensions h m k) rfl
        (by
          intro i hi
          rw [hlen0]
          exact div8_lt_bytesCount hi)
    refine ⟨f2, h1, ?_⟩
    rw [MultiBinaryBloomFilter.contains, h2, h3]
    apply multiContainsAux_true m hm0
    · intro hv _
      rw [h4, hlen0]
      exact div8_lt_bytesCount (Nat.mod_lt _ hm)
    · intro hv hvmem
      rcases List.mem_map.mp hvmem with ⟨b, hb, rfl⟩
      exact h6 x hmem b hb

/-- Concrete instance of no_false_negatives for all three variants. -/
theorem no_false_negatives_witness :
    basicContains 8 (fun n => n)
      (basicInsertList 8 (fun n => n) (List.replicate 8 false) [3, 5]) 3 = true ∧
    singleContains (fun n => n) (singleInsertList (fun n => n) 0 [3, 5]) 5 = true ∧
    ∃ f2, (MultiBinaryBloomFilter.with_dimensions (fun n : ℕ => n) 12 2).insertList [3, 9] =
        some f2 ∧ f2.contains 9 = some true :=
  ⟨no_false_negatives.1 ℕ (fun n => n) 8 (List.replicate 8 false) [3, 5] 3 (by decide)
      (by decide) (by decide),
   no_false_negatives.2.1 ℕ (fun n => n) 0 [3, 5] 5 (by decide),
   no_false_negatives.2.2 ℕ (fun n => n) 12 2 [3, 9] 9 (by decide) (by decide)⟩

/-- Claim C2 is violated by the code: with_dimensions performs no validation.
with_dimensions(0, 1) constructs a filter (filter_size 0, one hash builder)
with no construction-time error, and the invalid configuration is discovered
only later: insert and contains on it hit the modulo-by-zero panic (modelled
as none).  with_dimensions(8, 0) likewise accepts hash_count = 0. -/
theorem with_dimensions_zero_not_rejected :
    (MultiBinaryBloomFilter.with_dimensions (fun n : ℕ => n) 0 1).filter_size = 0 ∧
    (MultiBinaryBloomFilter.with_dimensions (fun n : ℕ => n) 0 1).hash_builders.length = 1 ∧
    (MultiBinaryBloomFilter.with_dimensions (fun n : ℕ => n) 0 1).insert 0 = none ∧
    (MultiBinaryBloomFilter.with_dimensions (fun n : ℕ => n) 0 1).contains 0 = none ∧
    (MultiBinaryBloomFilter.with_dimensions (fun n : ℕ => n) 8 0).hash_builders.length = 0 :=
  ⟨rfl, rfl, rfl, rfl, rfl⟩

/-- Claim C3 is violated by the code: vec![RandomState::new(); hash_count]
clones a single RandomState, so every MultiBinaryBloomFilter holds
hash_count copies of the same seed, and for every item all hash_count index
computations use one and the same hash function. -/
theorem hash_builders_share_one_seed :
    ∀ (α : Type) (h : α → ℕ) (m k : ℕ) (x : α),
      (MultiBinaryBloomFilter.with_dimensions h m k).hash_builders = List.replicate k h ∧
      (MultiBinaryBloomFilter.with_dimensions h m k).hash_builders.map (fun b => b x) =
        List.replicate k (h x) :=
  fun _ h _ k x =>
    ⟨rfl, by
      show (List.replicate k h).map (fun b => b x) = List.replicate k (h x)
      rw [List.map_replicate]⟩

/-- Claim C4: a BasicBloomFilter of capacity 128 and a SingleBinaryBloomFilter
driven by the same hash function give identical contains results after any
identical sequence of inserts, starting from their default states. -/
theorem basic128_matches_single :
    ∀ (α : Type) (hash : α → ℕ) (xs : List α) (x : α),
      basicContains 128 hash (basicInsertList 128 hash (List.replicate 128 false) xs) x =
        singleContains hash (singleInsertList hash 0 xs) x := by
  intro α hash xs x
  have hinit : ∀ i, (List.replicate 128 false).getD i false = (0 : ℕ).testBit i := by
    intro i
    rw [Nat.zero_testBit, List.getD_eq_getElem?_getD, List.getElem?_replicate]
    by_cases hi : i < 128 <;> simp [hi]
  obtain ⟨_, hinv⟩ := basicSingle_invariant hash xs (List.replicate 128 false) 0
    (List.length_replicate _ _) hinit
  rw [basicContains, singleContains_eq_testBit]
  exact hinv (hash x % 128)

/-- Claim C5: for every MultiBinaryBloomFilter constructed with
filter_size m > 0, the byte vector has exactly ceil(m/8) = (m+7)/8 bytes,
every builder output is reduced modulo m (hence at most m-1), and insert and
contains never perform an out-of-range byte access on any reachable state
(they never panic, i.e. never return none). -/
theorem multi_storage_in_bounds :
    ∀ (α : Type) (h : α → ℕ) (m k : ℕ), 0 < m → ∀ (xs : List α) (x : α),
      (MultiBinaryBloomFilter.with_dimensions h m k).bytes.length = (m + 7) / 8 ∧
      (∀ b ∈ (MultiBinaryBloomFilter.with_dimensions h m k).hash_builders,
        ∀ y : α, b y % m ≤ m - 1) ∧
      ∃ f2, (MultiBinaryBloomFilter.with_dimensions h m k).insertList xs = some f2 ∧
        f2.bytes.length = (m + 7) / 8 ∧
        (f2.insert x).isSome = true ∧ (f2.contains x).isSome = true := by
  intro α h m k hm xs x
  have hm0 : m ≠ 0 := hm.ne'
  have hceil : m / 8 + (if m % 8 > 0 then 1 else 0) = (m + 7) / 8 := by
    by_cases h8 : m % 8 > 0 <;> simp [h8] <;> omega
  have hlen0 : (MultiBinaryBloomFilter.with_dimensions h m k).bytes.length =
      m / 8 + if m % 8 > 0 then 1 else 0 := List.length_replicate _ _
  refine ⟨hlen0.trans hceil, ?_, ?_⟩
  · intro b _ y
    have := Nat.mod_lt (b y) hm
    omega
  · obtain ⟨f2, h1, h2, h3, h4, _, _⟩ :=
      insertList_spec m hm0 xs (MultiBinaryBloomFilter.with_dimensions h m k) rfl
        (by
          intro i hi
          rw [hlen0]
          exact div8_lt_bytesCount hi)
    have hlen2 : ∀ i, i < m → i / 8 < f2.bytes.length := by
      intro i hi
      rw [h4, hlen0]
      exact div8_lt_bytesCount hi
    refine ⟨f2, h1, by rw [h4, hlen0, hceil], ?_, ?_⟩
    · obtain ⟨bs, hbs, _, _, _⟩ :=
        multiInsertAux_spec m hm0 (f2.hash_builders.map (fun b => b x)) f2.bytes hlen2
      rw [MultiBinaryBloomFilter.insert, h2, hbs]
      rfl
    · rw [MultiBinaryBloomFilter.contains, h2]
      apply multiContainsAux_isSome m hm0
      intro hv _
      exact hlen2 _ (Nat.mod_lt _ hm)

/-- Concrete instance of multi_storage_in_bounds. -/
theorem multi_storage_in_bounds_witness :
    (MultiBinaryBloomFilter.with_dimensions (fun n : ℕ => n) 12 2).bytes.length = (12 + 7) / 8 ∧
    (∀ b ∈ (MultiBinaryBloomFilter.with_dimensions (fun n : ℕ => n) 12 2).hash_builders,
      ∀ y : ℕ, b y % 12 ≤ 12 - 1) ∧
    ∃ f2, (MultiBinaryBloomFilter.with_dimensions (fun n : ℕ => n) 12 2).insertList [3, 9] =
        some f2 ∧ f2.bytes.length = (12 + 7) / 8 ∧
        (f2.insert 4).isSome = true ∧ (f2.contains 4).isSome = true :=
  multi_storage_in_bounds ℕ (fun n => n) 12 2 (by decide) [3, 9] 4

/-- Claim C6: insert is idempotent for every variant: inserting an item a
second time leaves the filter state (and hence every later contains result)
exactly as after the first insertion.  For the MultiBinaryBloomFilter the
fallible insert is sequenced with bind, so a panicking run is unchanged too. -/
theorem insert_idempotent :
    (∀ (α : Type) (hash : α → ℕ) (c : ℕ) (v : List Bool) (x : α), 0 < c →
      basicInsert c hash (basicInsert c hash v x) x = basicInsert c hash v x) ∧
    (∀ (α : Type) (hash : α → ℕ) (fp : ℕ) (x : α),
      singleInsert hash (singleInsert hash fp x) x = singleInsert hash fp x) ∧
    (∀ (α : Type) (f : MultiBinaryBloomFilter α) (x : α),
      (f.insert x).bind (fun g => g.insert x) = f.insert x) := by
  refine ⟨?_, ?_, ?_⟩
  · intro α hash c v x _
    rw [basicInsert, basicInsert, List.set_set]
  · intro α hash fp x
    rw [singleInsert, singleInsert, Nat.lor_assoc, Nat.or_self]
  · intro α f x
    obtain ⟨fs, fb, fh⟩ := f
    rcases haux : multiInsertAux fs fb (fh.map (fun b => b x)) with _ | bs
    · simp [MultiBinaryBloomFilter.insert, haux]
    · obtain ⟨hlen, _, hall⟩ := multiInsertAux_success fs _ fb bs haux
      have hnoop : multiInsertAux fs bs (fh.map (fun b => b x)) = some bs := by
        apply multiInsertAux_noop
        intro hv hmem
        obtain ⟨hm, hb, hbit⟩ := hall hv hmem
        exact ⟨hm, by rw [hlen]; exact hb, hbit⟩
      simp [MultiBinaryBloomFilter.insert, haux, hnoop]

/-- Concrete instance of insert_idempotent. -/
theorem insert_idempotent_witness :
    basicInsert 8 (fun n => n) (basicInsert 8 (fun n => n) (List.replicate 8 false) 3) 3 =
      basicInsert 8 (fun n => n) (List.replicate 8 false) 3 :=
  insert_idempotent.1 ℕ (fun n => n) 8 (List.replicate 8 false) 3 (by decide)

/-- Claim C7: filter state is monotone: an insert never clears a set cell or
bit of any variant (and contains, a pure read in each variant, has no state
to change). -/
theorem insert_monotone :
    (∀ (α : Type) (hash : α → ℕ) (c : ℕ) (v : List Bool) (x : α) (i : ℕ),
      v.getD i false = true → (basicInsert c hash v x).getD i false = true) ∧
    (∀ (α : Type) (hash : α → ℕ) (fp : ℕ) (x : α) (i : ℕ),
      fp.testBit i = true → (singleInsert hash fp x).testBit i = true) ∧
    (∀ (α : Type) (f g : MultiBinaryBloomFilter α) (x : α) (i : ℕ),
      f.insert x = some g → getBit f.bytes i = true → getBit g.bytes i = true) := by
  refine ⟨?_, ?_, ?_⟩
  · intro α hash c v x i h
    rw [basicInsert]
    by_cases hi : hash x % c = i
    · subst hi
      by_cases hr : hash x % c < v.length
      · rw [getD_set_eq _ _ _ _ hr]
      · rw [List.set_eq_of_length_le (Nat.le_of_not_lt hr)]
        exact h
    · rw [getD_set_ne _ _ _ hi]
      exact h
  · intro α hash fp x i h
    rw [singleInsert, Nat.testBit_lor, h, Bool.true_or]
  · intro α f g x i hins hbit
    obtain ⟨fs, fb, fh⟩ := f
    rcases haux : multiInsertAux fs fb (fh.map (fun b => b x)) with _ | bs
    · rw [MultiBinaryBloomFilter.insert] at hins
      simp only at hins
      rw [haux] at hins
      exact absurd hins (by simp)
    · rw [MultiBinaryBloomFilter.insert] at hins
      simp only at hins
      rw [haux] at hins
      obtain ⟨_, hmono, _⟩ := multiInsertAux_success fs _ fb bs haux
      have hg : g = ⟨fs, bs, fh⟩ := by
        cases hins
        rfl
      subst hg
      exact hmono i hbit

/-- Concrete instance of insert_monotone for all three variants. -/
theorem insert_monotone_witness :
    (basicInsert 2 (fun n => n) [false, true] 0).getD 1 false = true ∧
    (singleInsert (fun n => n) 2 0).testBit 1 = true ∧
    getBit [9, 0] 0 = true :=
  ⟨insert_monotone.1 ℕ (fun n => n) 2 [false, true] 0 1 (by decide),
   insert_monotone.2.1 ℕ (fun n => n) 2 0 1 (by decide),
   insert_monotone.2.2 ℕ ⟨12, [1, 0], [fun n => n]⟩ ⟨12, [9, 0], [fun n => n]⟩ 3 0 rfl rfl⟩

/-- Claim C8: a MultiBinaryBloomFilter built with hash_count = 0 (accepted by
with_dimensions) reports contains = true for every item, already on the
freshly constructed filter; inserts are no-ops on it. -/
theorem zero_hash_count_contains_always_true :
    ∀ (α : Type) (h : α → ℕ) (m : ℕ), 0 < m → ∀ (x : α) (xs : List α),
      (MultiBinaryBloomFilter.with_dimensions h m 0).contains x = some true ∧
      (MultiBinaryBloomFilter.with_dimensions h m 0).insertList xs =
        some (MultiBinaryBloomFilter.with_dimensions h m 0) := by
  intro α h m _ x xs
  refine ⟨rfl, ?_⟩
  induction xs with
  | nil => rfl
  | cons y ys ih =>
    have hins : (MultiBinaryBloomFilter.with_dimensions h m 0).insert y =
        some (MultiBinaryBloomFilter.with_dimensions h m 0) := rfl
    rw [MultiBinaryBloomFilter.insertList, hins]
    exact ih

/-- Concrete instance of zero_hash_count_contains_always_true. -/
theorem zero_hash_count_witness :
    (MultiBinaryBloomFilter.with_dimensions (fun n : ℕ => n) 8 0).contains 5 = some true ∧
    (MultiBinaryBloomFilter.with_dimensions (fun n : ℕ => n) 8 0).insertList [1, 2] =
      some (MultiBinaryBloomFilter.with_dimensions (fun n : ℕ => n) 8 0) :=
  zero_hash_count_contains_always_true ℕ (fun n => n) 8 (by decide) 5 [1, 2]

/-- Claim C9: the (spec-modelled) SizingAdvisor.recommend is a deterministic
pure function computing m = ceil(-n ln p / (ln 2)^2) and
k = ceil((m/n) ln 2) for n > 0 and 0 < p < 1, and at p = 0.05 it coincides
with the sizing computation written inline in the regression test. -/
theorem sizingAdvisor_recommend_spec (n : ℕ) (p : ℝ) (_hn : 0 < n) (_hp0 : 0 < p)
    (_hp1 : p < 1) :
    SizingAdvisor.recommend n p =
      (⌈-(n : ℝ) * Real.log p / (Real.log 2) ^ 2⌉₊,
       ⌈((⌈-(n : ℝ) * Real.log p / (Real.log 2) ^ 2⌉₊ : ℝ) / (n : ℝ)) * Real.log 2⌉₊) ∧
    SizingAdvisor.recommend n 0.05 = (optimalFilterSize n, optimalHashCount n) :=
  ⟨rfl, rfl⟩

/-- Concrete instance of sizingAdvisor_recommend_spec at the scenario from
the spec (n = 1000, p = 0.05). -/
theorem sizingAdvisor_recommend_witness :
    SizingAdvisor.recommend 1000 0.05 = (optimalFilterSize 1000, optimalHashCount 1000) :=
  (sizingAdvisor_recommend_spec 1000 0.05 (by norm_num) (by norm_num) (by norm_num)).2

end BloomFilters
